import Mathlib

/-!
Verification development for the SEC EDGAR Analyzer repository.

The repository ingests SEC 10-K filings through a Python ETL script
(`scripts/ingest_filings.py`), stores normalized rows in a PostgreSQL
schema (`sql/schema.sql`), and renders them with a Next.js frontend
(`src/lib/supabase.ts`, `src/components/*.tsx`, `src/app/**/page.tsx`).

The frontend helpers (`getLatestFiling`, `calculateGrowth`, the
`metricsMap` transforms of `getCompaniesWithFilings` and
`getCompanyByTicker`) and the fixed vocabularies (`TRACKED_METRICS`,
`TRACKED_KEYWORDS`) are embedded directly from the TypeScript source.
The ETL pipeline itself is not part of the available sources, so the
Unit Detector, Metric Extractor, Keyword Scanner and storage upsert
layer are modelled from the specification (sections 4.2-4.5 and 6 of
the design document), over the row shapes fixed by `sql/schema.sql`.
-/

namespace SecEdgar

/-- Lowercase one ASCII character; the pipeline's pattern matching is
case-insensitive, so all text comparisons go through this map. -/
def lowerChar (c : Char) : Char :=
  if 'A' ≤ c ∧ c ≤ 'Z' then Char.ofNat (c.toNat + 32) else c

/-- A string as a lowercased character list, the form all substring
searches below operate on. -/
def lowerStr (s : String) : List Char := s.toList.map lowerChar

/-- Index of the first occurrence of `pat` inside `s`, if any. -/
def firstIdxOf (pat s : List Char) : Option ℕ :=
  (List.range (s.length + 1)).find? (fun i => pat.isPrefixOf (s.drop i))

/-- Case-insensitive substring test: `pat` occurs somewhere in `text`. -/
def occursIn (pat : String) (text : String) : Bool :=
  (firstIdxOf (lowerStr pat) (lowerStr text)).isSome

/-- The reporting scale of a document, as in spec section 4.2: one of
ones / thousands / millions. -/
inductive UnitScale where
  | ones
  | thousands
  | millions
deriving DecidableEq, Repr

/-- Multiplier taking a raw table cell to canonical (unscaled) USD. -/
def UnitScale.multiplier : UnitScale → ℤ
  | .ones => 1
  | .thousands => 1000
  | .millions => 1000000

/-- The earlier of two optional match positions. -/
def earliest : Option ℕ → Option ℕ → Option ℕ
  | none, b => b
  | some a, none => some a
  | some a, some b => some (min a b)

/-- Modelled from the spec: the Unit Detector of
`scripts/ingest_filings.py` (the script is not among the available
sources).  Per spec section 4.2 it searches the document text
case-insensitively for "in thousands" / "(000" / "in millions"; the
earliest match wins, and with no match the scale defaults to ones. -/
def detectUnit (text : String) : UnitScale :=
  let t := lowerStr text
  let th := earliest (firstIdxOf (lowerStr "in thousands") t)
                     (firstIdxOf (lowerStr "(000") t)
  let mi := firstIdxOf (lowerStr "in millions") t
  match th, mi with
  | none, none => .ones
  | some _, none => .thousands
  | none, some _ => .millions
  | some i, some j => if i ≤ j then .thousands else .millions

/-- Canonical USD value of a raw cell under a detected scale. -/
def canonicalValue (scale : UnitScale) (raw : ℤ) : ℤ :=
  raw * scale.multiplier

/-- A filing document as the extractor sees it: header/narrative text
plus labelled table rows (label text, raw numeric cell). -/
structure Document where
  text : String
  rows : List (String × ℤ)
deriving DecidableEq

/-- The fixed metric vocabulary, from `TRACKED_METRICS` in
`src/lib/supabase.ts`. -/
def TRACKED_METRICS : List String :=
  ["revenue", "net_income", "total_assets", "total_liabilities",
   "cash_and_equivalents"]

/-- The fixed risk-keyword vocabulary, from `TRACKED_KEYWORDS` in
`src/lib/supabase.ts`. -/
def TRACKED_KEYWORDS : List String :=
  ["supply chain", "inflation", "cybersecurity", "litigation",
   "regulation", "competition", "climate", "pandemic", "geopolitical",
   "interest rate"]

/-- Modelled from the spec: the per-metric label pattern sets of the
Metric Extractor in `scripts/ingest_filings.py` (script not among the
available sources); the revenue patterns are the ones named in spec
section 4.3, the rest use the metric's natural label. -/
def metricPatterns : String → List String
  | "revenue" => ["total net sales", "total revenue", "net sales"]
  | "net_income" => ["net income", "net earnings"]
  | "total_assets" => ["total assets"]
  | "total_liabilities" => ["total liabilities"]
  | "cash_and_equivalents" => ["cash and cash equivalents"]
  | _ => []

/-- A table row label matches a metric when any of the metric's
patterns occurs in it (case-insensitively). -/
def labelMatches (m : String) (label : String) : Bool :=
  (metricPatterns m).any (fun p => occursIn p label)

/-- All candidate raw values for a metric: the numeric cells of every
row whose label matches one of the metric's patterns. -/
def candidatesFor (doc : Document) (m : String) : List ℤ :=
  (doc.rows.filter (fun r => labelMatches m r.1)).map (fun r => r.2)

/-- One step of candidate disambiguation: keep whichever of the
current best and the next candidate has the larger absolute value. -/
def pickAbs (best c : ℤ) : ℤ := if |best| < |c| then c else best

/-- Modelled from the spec: the disambiguation rule of spec section
4.3 — among all candidates, select the numeric maximum by absolute
value; no candidate yields `none`. -/
def selectCandidate : List ℤ → Option ℤ
  | [] => none
  | x :: xs => some (xs.foldl pickAbs x)

/-- Modelled from the spec: the Metric Extractor contract of spec
section 4.3 — pick the max-abs candidate and convert it to canonical
USD with the document's detected scale; absence of any label match is
`none`, not an error. -/
def extractMetric (doc : Document) (m : String) : Option ℤ :=
  (selectCandidate (candidatesFor doc m)).map
    (fun v => canonicalValue (detectUnit doc.text) v)

/-- A document with one segment-level and one consolidated revenue
row, as in the spec's disambiguation example. -/
def segmentDoc : Document :=
  { text := "Annual Report"
    rows := [("Total revenue (segment)", 1000000),
             ("Total revenue (consolidated)", 50000000)] }

section TableDefs

variable {κ ρ : Type} [DecidableEq κ]

/-- Modelled from the spec: a keyed upsert into a table of rows, per
the storage interface of spec section 6 (the upsert implementation
lives in `scripts/ingest_filings.py`, which is not among the available
sources): the first row carrying the same key is replaced in place,
otherwise the row is appended. -/
def upsertRow (key : ρ → κ) (r : ρ) : List ρ → List ρ
  | [] => [r]
  | x :: xs => if key x = key r then r :: xs else x :: upsertRow key r xs

/-- A batch of keyed upserts, applied left to right. -/
def upsertAll (key : ρ → κ) (rs : List ρ) (s : List ρ) : List ρ :=
  rs.foldl (fun st r => upsertRow key r st) s

/-- The keys of a table, in row order. -/
def keysOf (key : ρ → κ) (s : List ρ) : List κ := s.map key

/-- The first row carrying a given key, if any. -/
def lookupKey (key : ρ → κ) (k : κ) (s : List ρ) : Option ρ :=
  s.find? (fun x => decide (key x = k))

/-- The last row of a batch carrying a given key, if any: the one a
left-to-right batch leaves in the table. -/
def lastWrite (key : ρ → κ) (k : κ) (rs : List ρ) : Option ρ :=
  rs.reverse.find? (fun x => decide (key x = k))

end TableDefs

/-- Natural key of a filing: the uniqueness invariant
`UNIQUE(company_id, filing_type, fiscal_year, fiscal_period)` of the
`filings` table in `sql/schema.sql`. -/
structure FilingKey where
  company_id : String
  filing_type : String
  fiscal_year : ℤ
  fiscal_period : Option String
deriving DecidableEq

/-- A row of the `filings` table of `sql/schema.sql` (surrogate uuid
and timestamp columns omitted; rows are identified by the natural
key). -/
structure FilingRow where
  key : FilingKey
  filing_date : String
  accession_number : Option String
  source_url : String
deriving DecidableEq

/-- A row of the `financial_metrics` table of `sql/schema.sql`:
`UNIQUE(filing_id, metric_name)`, nullable numeric value, unit
label. -/
structure MetricRow where
  filing_key : FilingKey
  metric_name : String
  metric_value : Option ℤ
  unit : String
deriving DecidableEq

/-- A row of the `risk_keywords` table of `sql/schema.sql`:
`UNIQUE(filing_id, keyword, section)`, integer frequency, optional
context snippet.  The schema's `section` column is called
`section_name` here. -/
structure KeywordRow where
  filing_key : FilingKey
  keyword : String
  frequency : ℤ
  section_name : String
  context_snippet : Option String
deriving DecidableEq

/-- Key of a filing row. -/
def filingKeyOf (r : FilingRow) : FilingKey := r.key

/-- Key of a metric row: (filing, metric_name). -/
def metricKeyOf (r : MetricRow) : FilingKey × String :=
  (r.filing_key, r.metric_name)

/-- Key of a keyword row: (filing, keyword, section). -/
def keywordKeyOf (r : KeywordRow) : FilingKey × String × String :=
  (r.filing_key, r.keyword, r.section_name)

/-- Number of occurrences of `pat` in `s` (start positions). -/
def countOccur (pat s : List Char) : ℕ :=
  (List.range (s.length + 1)).countP (fun i => pat.isPrefixOf (s.drop i))

/-- Modelled from the spec: the risk-factors section located by the
Keyword Scanner of `scripts/ingest_filings.py` (script not among the
available sources); per spec section 4.4, from the first "item 1a"
heading to the next "item " heading, falling back to the whole
document when the section cannot be located. -/
def riskSection (text : String) : List Char :=
  let t := lowerStr text
  match firstIdxOf (lowerStr "item 1a") t with
  | none => t
  | some i =>
      let rest := t.drop (i + 7)
      match firstIdxOf (lowerStr "item ") rest with
      | none => rest
      | some j => rest.take j

/-- Modelled from the spec: a keyword's frequency count within the
risk section (spec section 4.4, case-insensitive substring count). -/
def keywordFrequency (text : String) (kw : String) : ℕ :=
  countOccur (lowerStr kw) (riskSection text)

/-- Modelled from the spec: the first context fragment containing the
keyword, truncated to 300 characters (spec section 4.4). -/
def keywordSnippet (text : String) (kw : String) : Option String :=
  match firstIdxOf (lowerStr kw) (riskSection text) with
  | none => none
  | some i => some (String.mk (((riskSection text).drop i).take 300))

/-- One unit of orchestrator input: a filing's descriptor together
with its fetched document. -/
structure FilingInput where
  filing : FilingRow
  doc : Document
deriving DecidableEq

/-- The metric row written for one filing and one tracked metric:
the extractor's result (possibly `none`) in canonical USD. -/
def metricRowFor (fk : FilingKey) (doc : Document) (m : String) : MetricRow :=
  { filing_key := fk
    metric_name := m
    metric_value := extractMetric doc m
    unit := "USD" }

/-- Modelled from the spec: the metric rows written for one filing —
one row per tracked metric, value `none` when extraction found
nothing (spec section 3, lifecycle: a failed extraction leaves the
value null rather than omitting the row). -/
def metricRowsOf (inp : FilingInput) : List MetricRow :=
  TRACKED_METRICS.map (metricRowFor inp.filing.key inp.doc)

/-- The keyword row written for one filing and one tracked keyword:
the scanner's count and first context fragment. -/
def keywordRowFor (fk : FilingKey) (text : String) (kw : String) : KeywordRow :=
  { filing_key := fk
    keyword := kw
    frequency := (keywordFrequency text kw : ℤ)
    section_name := "risk_factors"
    context_snippet := keywordSnippet text kw }

/-- Modelled from the spec: the keyword rows written for one filing —
one row per tracked keyword with a positive frequency in the risk
section (spec section 4.4 recommends omitting zero-frequency
keywords). -/
def keywordRowsOf (inp : FilingInput) : List KeywordRow :=
  (TRACKED_KEYWORDS.filter
      (fun kw => decide (0 < keywordFrequency inp.doc.text kw))).map
    (keywordRowFor inp.filing.key inp.doc.text)

/-- The storage state: the three tables of `sql/schema.sql` the
pipeline writes to. -/
structure Store where
  filings : List FilingRow
  metrics : List MetricRow
  keywords : List KeywordRow
deriving DecidableEq

/-- The empty storage state. -/
def Store.empty : Store := ⟨[], [], []⟩

/-- Modelled from the spec: one filing's storage step (spec sections
4.5 and 6) — upsert the filing row, then each metric row, then each
keyword row, each keyed by its table's uniqueness invariant. -/
def processFiling (inp : FilingInput) (s : Store) : Store :=
  { filings := upsertRow filingKeyOf inp.filing s.filings
    metrics := upsertAll metricKeyOf (metricRowsOf inp) s.metrics
    keywords := upsertAll keywordKeyOf (keywordRowsOf inp) s.keywords }

/-- Modelled from the spec: the Ingestion Orchestrator's loop over a
filing set (spec section 4.5). -/
def ingest (inputs : List FilingInput) (s : Store) : Store :=
  inputs.foldl (fun st inp => processFiling inp st) s

/-- Well-formed storage state: each table's keys are pairwise
distinct — the uniqueness invariants of `sql/schema.sql`. -/
def Store.WF (s : Store) : Prop :=
  (keysOf filingKeyOf s.filings).Nodup ∧
    (keysOf metricKeyOf s.metrics).Nodup ∧
    (keysOf keywordKeyOf s.keywords).Nodup

/-- Storage states reachable by orchestrator runs from the empty
store. -/
inductive Reachable : Store → Prop
  | init : Reachable Store.empty
  | step (inputs : List FilingInput) {s : Store} :
      Reachable s → Reachable (ingest inputs s)

/-- A sample filing key for concrete witnesses. -/
def sampleKey : FilingKey := ⟨"AAPL", "10-K", 2023, some "FY"⟩

/-- A sample filing row for concrete witnesses. -/
def sampleFiling : FilingRow :=
  ⟨sampleKey, "2023-11-03", some "0000320193-23-000106",
    "https://example.test/aapl-10k"⟩

/-- A sample orchestrator input whose document contains nothing. -/
def emptyDocInput : FilingInput := ⟨sampleFiling, ⟨"", []⟩⟩

/-- A sample input whose document mentions two tracked risk
keywords. -/
def riskDocInput : FilingInput :=
  ⟨sampleFiling, ⟨"cybersecurity and litigation risks", []⟩⟩

/-- JavaScript's `v || null` applied to a `metricsMap` lookup, as in
the page-assembly functions: `undefined` (absent key), `null` (stored
null) and `0` (falsy) all coerce to `null`. -/
def jsOrNull (v : Option (Option ℤ)) : Option ℤ :=
  match v with
  | some (some x) => if x = 0 then none else some x
  | _ => none

/-- The `metricsMap` of `getCompaniesWithFilings` / `getCompanyByTicker`,
built by `forEach` assignment: the last row carrying a metric name
wins; an absent name reads as `undefined` (the outer `none`). -/
def metricsMapLookup (rows : List MetricRow) (name : String) :
    Option (Option ℤ) :=
  (rows.reverse.find? (fun r => decide (r.metric_name = name))).map
    (fun r => r.metric_value)

/-- The per-filing view assembled by `getCompaniesWithFilings` in the
home page: `total_revenue`, `net_income`, `total_assets`, each via
`metricsMap[...] || null`. -/
structure HomeFilingView where
  total_revenue : Option ℤ
  net_income : Option ℤ
  total_assets : Option ℤ
deriving DecidableEq

/-- `getCompaniesWithFilings`'s metric transform (home page). -/
def homeFilingView (rows : List MetricRow) : HomeFilingView :=
  { total_revenue := jsOrNull (metricsMapLookup rows "revenue")
    net_income := jsOrNull (metricsMapLookup rows "net_income")
    total_assets := jsOrNull (metricsMapLookup rows "total_assets") }

/-- The per-filing view assembled by `getCompanyByTicker` in
`src/app/company/[ticker]/page.tsx`: four metric fields via
`metricsMap[...] || null`. -/
structure TickerFilingView where
  total_revenue : Option ℤ
  net_income : Option ℤ
  total_assets : Option ℤ
  total_liabilities : Option ℤ
deriving DecidableEq

/-- `getCompanyByTicker`'s metric transform (company page). -/
def tickerFilingView (rows : List MetricRow) : TickerFilingView :=
  { total_revenue := jsOrNull (metricsMapLookup rows "revenue")
    net_income := jsOrNull (metricsMapLookup rows "net_income")
    total_assets := jsOrNull (metricsMapLookup rows "total_assets")
    total_liabilities := jsOrNull (metricsMapLookup rows "total_liabilities") }

/-- The `Filing` record consumed by `Dashboard.tsx` and
`CompanyCard.tsx`. -/
structure DashFiling where
  id : String
  fiscal_year : ℤ
  filing_date : String
  total_revenue : Option ℤ
  net_income : Option ℤ
  total_assets : Option ℤ
  risk_keywords : List String
deriving DecidableEq

/-- The reduce step of `getLatestFiling`:
`current.fiscal_year > latest.fiscal_year ? current : latest`. -/
def latestPick (latest current : DashFiling) : DashFiling :=
  if latest.fiscal_year < current.fiscal_year then current else latest

/-- `getLatestFiling` from `src/components/Dashboard.tsx` (lines
58-63, identical in `CompanyCard.tsx`): null for a missing or empty
list, otherwise `filings.reduce(...)` with `latestPick`. -/
def getLatestFiling (filings : Option (List DashFiling)) :
    Option DashFiling :=
  match filings with
  | none => none
  | some [] => none
  | some (x :: xs) => some (xs.foldl latestPick x)

/-- A minimal dashboard filing for concrete witnesses. -/
def dashFiling (i : String) (y : ℤ) : DashFiling :=
  ⟨i, y, "2023-11-03", none, none, none, []⟩

/-- JavaScript's `toFixed(1)` modelled over the rationals: round to
the nearest tenth, ties upward, then render with one decimal digit. -/
def jsToFixed1 (q : ℚ) : String :=
  let n : ℤ := ⌊q * 10 + 1 / 2⌋
  let sgn := if n < 0 then "-" else ""
  sgn ++ toString (n.natAbs / 10) ++ "." ++ toString (n.natAbs % 10)

/-- `calculateGrowth` from `src/components/CompanyCard.tsx` (lines
52-56): null when either argument is null or the base is zero,
otherwise `(((current - previous) / Math.abs(previous)) *
100).toFixed(1)`.  JavaScript numbers are modelled as rationals. -/
def calculateGrowth (current previous : Option ℚ) : Option String :=
  match current, previous with
  | some c, some p =>
      if p = 0 then none else some (jsToFixed1 ((c - p) / |p| * 100))
  | _, _ => none

/-- The first argument's absolute value never exceeds the pick's. -/
theorem abs_le_pickAbs_left (x z : ℤ) : |x| ≤ |pickAbs x z| := by
  unfold pickAbs
  split
  · exact le_of_lt (by assumption)
  · exact le_refl _

/-- The second argument's absolute value never exceeds the pick's. -/
theorem abs_le_pickAbs_right (x z : ℤ) : |z| ≤ |pickAbs x z| := by
  unfold pickAbs
  split
  · exact le_refl _
  · exact le_of_not_lt (by assumption)

/-- The pick is one of its two arguments. -/
theorem pickAbs_eq_or (x z : ℤ) : pickAbs x z = x ∨ pickAbs x z = z := by
  unfold pickAbs
  split
  · exact Or.inr rfl
  · exact Or.inl rfl

/-- The inner fold of `selectCandidate` returns a member of `x :: xs`
whose absolute value dominates every element of `x :: xs`. -/
theorem foldl_pickAbs_spec (xs : List ℤ) (x : ℤ) :
    xs.foldl pickAbs x ∈ x :: xs ∧
      ∀ y ∈ x :: xs, |y| ≤ |xs.foldl pickAbs x| := by
  induction xs generalizing x with
  | nil =>
    refine ⟨List.mem_cons_self _ _, ?_⟩
    intro y hy
    rcases List.mem_cons.mp hy with rfl | h
    · exact le_refl _
    · exact absurd h (List.not_mem_nil _)
  | cons z zs ih =>
    have h := ih (pickAbs x z)
    rw [List.foldl_cons]
    constructor
    · rcases List.mem_cons.mp h.1 with heq | hm
      · rcases pickAbs_eq_or x z with h' | h'
        · rw [heq, h']
          exact List.mem_cons_self _ _
        · rw [heq, h']
          exact List.mem_cons.mpr (Or.inr (List.mem_cons_self _ _))
      · exact List.mem_cons.mpr (Or.inr (List.mem_cons.mpr (Or.inr hm)))
    · intro y hy
      rcases List.mem_cons.mp hy with rfl | hy
      · exact le_trans (abs_le_pickAbs_left y z)
          (h.2 _ (List.mem_cons_self _ _))
      · rcases List.mem_cons.mp hy with rfl | hy
        · exact le_trans (abs_le_pickAbs_right x y)
            (h.2 _ (List.mem_cons_self _ _))
        · exact h.2 y (List.mem_cons.mpr (Or.inr hy))

/-- With no millions marker and a thousands phrase present, the
detector reports thousands. -/
theorem detectUnit_thousands (text : String)
    (h1 : occursIn "in thousands" text = true)
    (h2 : occursIn "in millions" text = false) :
    detectUnit text = UnitScale.thousands := by
  unfold occursIn at h1 h2
  rcases hi : firstIdxOf (lowerStr "in thousands") (lowerStr text) with _ | i
  · rw [hi] at h1
    simp at h1
  · rcases hm : firstIdxOf (lowerStr "in millions") (lowerStr text) with _ | j
    · rcases h0 : firstIdxOf (lowerStr "(000") (lowerStr text) with _ | k <;>
        simp [detectUnit, hi, hm, h0, earliest]
    · rw [hm] at h2
      simp at h2

/-- With no thousands marker and a millions phrase present, the
detector reports millions. -/
theorem detectUnit_millions (text : String)
    (h1 : occursIn "in millions" text = true)
    (h2 : occursIn "in thousands" text = false)
    (h3 : occursIn "(000" text = false) :
    detectUnit text = UnitScale.millions := by
  unfold occursIn at h1 h2 h3
  rcases hm : firstIdxOf (lowerStr "in millions") (lowerStr text) with _ | j
  · rw [hm] at h1
    simp at h1
  · rcases hi : firstIdxOf (lowerStr "in thousands") (lowerStr text) with _ | i
    · rcases h0 : firstIdxOf (lowerStr "(000") (lowerStr text) with _ | k
      · simp [detectUnit, hi, hm, h0, earliest]
      · rw [h0] at h3
        simp at h3
    · rw [hi] at h2
      simp at h2

/-- With no unit marker at all, the detector defaults to ones. -/
theorem detectUnit_ones (text : String)
    (h1 : occursIn "in thousands" text = false)
    (h2 : occursIn "(000" text = false)
    (h3 : occursIn "in millions" text = false) :
    detectUnit text = UnitScale.ones := by
  unfold occursIn at h1 h2 h3
  rcases hi : firstIdxOf (lowerStr "in thousands") (lowerStr text) with _ | i
  · rcases h0 : firstIdxOf (lowerStr "(000") (lowerStr text) with _ | k
    · rcases hm : firstIdxOf (lowerStr "in millions") (lowerStr text) with _ | j
      · simp [detectUnit, hi, hm, h0, earliest]
      · rw [hm] at h3
        simp at h3
    · rw [h0] at h2
      simp at h2
  · rw [hi] at h1
    simp at h1

section TableLemmas

variable {κ ρ : Type} [DecidableEq κ]

/-- Upserting changes the key sequence only by appending a genuinely
new key. -/
theorem keysOf_upsertRow (key : ρ → κ) (r : ρ) (s : List ρ) :
    keysOf key (upsertRow key r s) =
      if key r ∈ keysOf key s then keysOf key s
      else keysOf key s ++ [key r] := by
  induction s with
  | nil => simp [upsertRow, keysOf]
  | cons x xs ih =>
    by_cases h : key x = key r
    · simp [upsertRow, h, keysOf]
    · have hne : key r ≠ key x := fun hh => h hh.symm
      have hstep : upsertRow key r (x :: xs) = x :: upsertRow key r xs := by
        simp [upsertRow, h]
      have hcons : keysOf key (x :: upsertRow key r xs)
          = key x :: keysOf key (upsertRow key r xs) := rfl
      rw [hstep, hcons, ih]
      have hmem : key r ∈ keysOf key (x :: xs) ↔ key r ∈ keysOf key xs := by
        simp only [keysOf, List.map_cons, List.mem_cons]
        exact ⟨fun hh => hh.resolve_left hne, Or.inr⟩
      by_cases hm : key r ∈ keysOf key xs
      · rw [if_pos hm, if_pos (hmem.mpr hm)]
        rfl
      · rw [if_neg hm, if_neg (fun hh => hm (hmem.mp hh))]
        rfl

/-- Lookup after an upsert: the upserted key now maps to the new row,
all other keys are untouched. -/
theorem lookupKey_upsertRow (key : ρ → κ) (r : ρ) (k : κ) (s : List ρ) :
    lookupKey key k (upsertRow key r s) =
      if key r = k then some r else lookupKey key k s := by
  induction s with
  | nil =>
    by_cases h : key r = k <;> simp [upsertRow, lookupKey, h]
  | cons x xs ih =>
    by_cases hx : key x = key r
    · have hstep : upsertRow key r (x :: xs) = r :: xs := by
        simp [upsertRow, hx]
      rw [hstep]
      by_cases hk : key r = k
      · simp [lookupKey, List.find?_cons, hk]
      · have hxk : ¬ key x = k := fun hh => hk (by rw [← hx]; exact hh)
        simp [lookupKey, List.find?_cons, hk, hxk]
    · have hstep : upsertRow key r (x :: xs) = x :: upsertRow key r xs := by
        simp [upsertRow, hx]
      rw [hstep]
      by_cases hxk : key x = k
      · have hk : ¬ key r = k := fun hh => hx (by rw [hxk, ← hh])
        simp [lookupKey, List.find?_cons, hxk, hk]
      · have h1 : lookupKey key k (x :: upsertRow key r xs)
            = lookupKey key k (upsertRow key r xs) := by
          simp [lookupKey, List.find?_cons, hxk]
        have h2 : lookupKey key k (x :: xs) = lookupKey key k xs := by
          simp [lookupKey, List.find?_cons, hxk]
        rw [h1, h2, ih]

/-- Upserting preserves distinctness of keys. -/
theorem nodup_keys_upsertRow (key : ρ → κ) (r : ρ) (s : List ρ)
    (h : (keysOf key s).Nodup) :
    (keysOf key (upsertRow key r s)).Nodup := by
  rw [keysOf_upsertRow]
  split
  · exact h
  · rename_i hm
    simp [List.nodup_append, h, hm]

/-- A key absent from a table has no row. -/
theorem lookupKey_eq_none (key : ρ → κ) (k : κ) (s : List ρ)
    (h : k ∉ keysOf key s) : lookupKey key k s = none := by
  rw [lookupKey, List.find?_eq_none]
  intro x hx
  simp only [decide_eq_true_eq]
  intro hk
  exact h (hk ▸ List.mem_map_of_mem key hx)

/-- Lookup after a batch of upserts: the batch's last write for the
key, falling back to the previous table. -/
theorem lookupKey_upsertAll (key : ρ → κ) (k : κ) (rs s : List ρ) :
    lookupKey key k (upsertAll key rs s) =
      (lastWrite key k rs).or (lookupKey key k s) := by
  induction rs generalizing s with
  | nil => simp [upsertAll, lastWrite]
  | cons r rs ih =>
    have hfold : upsertAll key (r :: rs) s = upsertAll key rs (upsertRow key r s) := rfl
    rw [hfold, ih, lookupKey_upsertRow]
    have hlast : lastWrite key k (r :: rs) =
        (lastWrite key k rs).or (if key r = k then some r else none) := by
      simp only [lastWrite, List.reverse_cons, List.find?_append]
      by_cases h : key r = k <;> simp [h]
    rw [hlast]
    cases lastWrite key k rs <;> by_cases h : key r = k <;> simp [h]

/-- The key of an upserted row is present afterwards. -/
theorem mem_keys_upsertRow_self (key : ρ → κ) (r : ρ) (s : List ρ) :
    key r ∈ keysOf key (upsertRow key r s) := by
  rw [keysOf_upsertRow]
  split
  · assumption
  · exact List.mem_append_right _ (List.mem_singleton.mpr rfl)

/-- Upserting never removes a key. -/
theorem mem_keys_upsertRow_mono (key : ρ → κ) (r : ρ) (k : κ) (s : List ρ)
    (h : k ∈ keysOf key s) : k ∈ keysOf key (upsertRow key r s) := by
  rw [keysOf_upsertRow]
  split
  · exact h
  · exact List.mem_append_left _ h

/-- A batch of upserts never removes a key. -/
theorem mem_keys_upsertAll_mono (key : ρ → κ) (rs : List ρ) (k : κ)
    (s : List ρ) (h : k ∈ keysOf key s) :
    k ∈ keysOf key (upsertAll key rs s) := by
  induction rs generalizing s with
  | nil => exact h
  | cons r rs ih => exact ih _ (mem_keys_upsertRow_mono key r k s h)

/-- Every key written by a batch is present afterwards. -/
theorem mem_keys_upsertAll_of_mem (key : ρ → κ) {rs : List ρ} {r : ρ}
    (hr : r ∈ rs) (s : List ρ) :
    key r ∈ keysOf key (upsertAll key rs s) := by
  induction rs generalizing s with
  | nil => exact absurd hr (List.not_mem_nil r)
  | cons x xs ih =>
    rcases List.mem_cons.mp hr with rfl | hr
    · exact mem_keys_upsertAll_mono key xs _ _ (mem_keys_upsertRow_self key r s)
    · exact ih hr _

/-- A batch whose keys are all already present leaves the key sequence
unchanged. -/
theorem keysOf_upsertAll_of_subset (key : ρ → κ) (rs s : List ρ)
    (h : ∀ r ∈ rs, key r ∈ keysOf key s) :
    keysOf key (upsertAll key rs s) = keysOf key s := by
  induction rs generalizing s with
  | nil => rfl
  | cons r rs ih =>
    have hkeys : keysOf key (upsertRow key r s) = keysOf key s := by
      rw [keysOf_upsertRow, if_pos (h r (List.mem_cons_self r rs))]
    have hstep : upsertAll key (r :: rs) s = upsertAll key rs (upsertRow key r s) := rfl
    rw [hstep, ih (upsertRow key r s) (fun x hx => hkeys ▸ h x (List.mem_cons.mpr (Or.inr hx))), hkeys]

/-- A batch of upserts preserves distinctness of keys. -/
theorem nodup_keys_upsertAll (key : ρ → κ) (rs s : List ρ)
    (h : (keysOf key s).Nodup) :
    (keysOf key (upsertAll key rs s)).Nodup := by
  induction rs generalizing s with
  | nil => exact h
  | cons r rs ih => exact ih _ (nodup_keys_upsertRow key r s h)

/-- Every row of the table after a batch came from the previous table
or from the batch. -/
theorem mem_upsertRow (key : ρ → κ) (r x : ρ) (s : List ρ)
    (h : x ∈ upsertRow key r s) : x ∈ s ∨ x = r := by
  induction s with
  | nil =>
    simp only [upsertRow] at h
    exact Or.inr (List.mem_singleton.mp h)
  | cons y ys ih =>
    by_cases hy : key y = key r
    · simp only [upsertRow, hy, if_pos] at h
      rcases List.mem_cons.mp h with rfl | h
      · exact Or.inr rfl
      · exact Or.inl (List.mem_cons.mpr (Or.inr h))
    · simp only [upsertRow, hy, if_neg, if_false] at h
      rcases List.mem_cons.mp h with rfl | h
      · exact Or.inl (List.mem_cons_self _ _)
      · rcases ih h with h' | h'
        · exact Or.inl (List.mem_cons.mpr (Or.inr h'))
        · exact Or.inr h'

/-- Row provenance for a batch of upserts. -/
theorem mem_upsertAll (key : ρ → κ) (rs s : List ρ) (x : ρ)
    (h : x ∈ upsertAll key rs s) : x ∈ s ∨ x ∈ rs := by
  induction rs generalizing s with
  | nil => exact Or.inl h
  | cons r rs ih =>
    rcases ih (upsertRow key r s) h with h' | h'
    · rcases mem_upsertRow key r x s h' with h'' | h''
      · exact Or.inl h''
      · exact Or.inr (h'' ▸ List.mem_cons_self _ _)
    · exact Or.inr (List.mem_cons.mpr (Or.inr h'))

/-- Tables with the same key sequence and the same lookups are equal,
provided keys are distinct. -/
theorem table_ext (key : ρ → κ) (s₁ s₂ : List ρ)
    (hkeys : keysOf key s₁ = keysOf key s₂)
    (hlook : ∀ k, lookupKey key k s₁ = lookupKey key k s₂)
    (hnd : (keysOf key s₁).Nodup) : s₁ = s₂ := by
  induction s₁ generalizing s₂ with
  | nil =>
    cases s₂ with
    | nil => rfl
    | cons y ys => simp [keysOf] at hkeys
  | cons x xs ih =>
    cases s₂ with
    | nil => simp [keysOf] at hkeys
    | cons y ys =>
      have hk : key x = key y ∧ keysOf key xs = keysOf key ys := by
        simpa [keysOf] using hkeys
      have hxy : x = y := by
        have h1 := hlook (key x)
        simp [lookupKey, List.find?_cons, hk.1.symm] at h1
        exact h1
      subst hxy
      have hnd' : (keysOf key xs).Nodup := (List.nodup_cons.mp (by simpa [keysOf] using hnd)).2
      have hx_not : key x ∉ keysOf key xs := (List.nodup_cons.mp (by simpa [keysOf] using hnd)).1
      have hx_not' : key x ∉ keysOf key ys := hk.2 ▸ hx_not
      have htails : ∀ k, lookupKey key k xs = lookupKey key k ys := by
        intro k
        by_cases hxk : key x = k
        · rw [lookupKey_eq_none key k xs (hxk ▸ hx_not),
            lookupKey_eq_none key k ys (hxk ▸ hx_not')]
        · have h1 := hlook k
          simpa [lookupKey, List.find?_cons, hxk] using h1
      rw [ih ys hk.2 htails hnd']

/-- A batch of upserts is idempotent: replaying it on its own result
changes nothing. -/
theorem upsertAll_idem (key : ρ → κ) (rs s : List ρ)
    (hnd : (keysOf key s).Nodup) :
    upsertAll key rs (upsertAll key rs s) = upsertAll key rs s := by
  apply table_ext key
  · exact keysOf_upsertAll_of_subset key rs _ (fun r hr => mem_keys_upsertAll_of_mem key hr s)
  · intro k
    rw [lookupKey_upsertAll, lookupKey_upsertAll]
    cases lastWrite key k rs <;> simp
  · rw [keysOf_upsertAll_of_subset key rs _ (fun r hr => mem_keys_upsertAll_of_mem key hr s)]
    exact nodup_keys_upsertAll key rs s hnd

end TableLemmas

/-- Two stores with equal tables are equal. -/
theorem Store.ext_fields {a b : Store} (h1 : a.filings = b.filings)
    (h2 : a.metrics = b.metrics) (h3 : a.keywords = b.keywords) :
    a = b := by
  cases a
  cases b
  simp_all

/-- The filings table after a run is the batch of filing-row upserts. -/
theorem ingest_filings (inputs : List FilingInput) (s : Store) :
    (ingest inputs s).filings =
      upsertAll filingKeyOf (inputs.map (fun i => i.filing)) s.filings := by
  induction inputs generalizing s with
  | nil => rfl
  | cons i is ih => exact ih (processFiling i s)

/-- The metrics table after a run is the batch of metric-row upserts. -/
theorem ingest_metrics (inputs : List FilingInput) (s : Store) :
    (ingest inputs s).metrics =
      upsertAll metricKeyOf (inputs.flatMap metricRowsOf) s.metrics := by
  induction inputs generalizing s with
  | nil => rfl
  | cons i is ih =>
    have h : ingest (i :: is) s = ingest is (processFiling i s) := rfl
    rw [h, ih]
    have hb : (i :: is).flatMap metricRowsOf
        = metricRowsOf i ++ is.flatMap metricRowsOf := rfl
    rw [hb]
    simp [upsertAll, List.foldl_append, processFiling]

/-- The keywords table after a run is the batch of keyword-row
upserts. -/
theorem ingest_keywords (inputs : List FilingInput) (s : Store) :
    (ingest inputs s).keywords =
      upsertAll keywordKeyOf (inputs.flatMap keywordRowsOf) s.keywords := by
  induction inputs generalizing s with
  | nil => rfl
  | cons i is ih =>
    have h : ingest (i :: is) s = ingest is (processFiling i s) := rfl
    rw [h, ih]
    have hb : (i :: is).flatMap keywordRowsOf
        = keywordRowsOf i ++ is.flatMap keywordRowsOf := rfl
    rw [hb]
    simp [upsertAll, List.foldl_append, processFiling]

/-- Orchestrator runs preserve well-formedness. -/
theorem ingest_wf (inputs : List FilingInput) (s : Store) (h : s.WF) :
    (ingest inputs s).WF := by
  refine ⟨?_, ?_, ?_⟩
  · rw [ingest_filings]
    exact nodup_keys_upsertAll _ _ _ h.1
  · rw [ingest_metrics]
    exact nodup_keys_upsertAll _ _ _ h.2.1
  · rw [ingest_keywords]
    exact nodup_keys_upsertAll _ _ _ h.2.2

/-- Every reachable storage state is well-formed. -/
theorem reachable_wf {s : Store} (h : Reachable s) : s.WF := by
  induction h with
  | init => exact ⟨List.nodup_nil, List.nodup_nil, List.nodup_nil⟩
  | step inputs _ ih => exact ingest_wf inputs _ ih

/-- Searching a list for an element equal to `m` finds `m` itself
whenever `m` is present. -/
theorem find?_eq_self_of_mem {α : Type} [DecidableEq α] {m : α}
    {l : List α} (h : m ∈ l) :
    l.find? (fun n => decide (n = m)) = some m := by
  induction l with
  | nil => exact absurd h (List.not_mem_nil m)
  | cons x xs ih =>
    by_cases hx : x = m
    · simp [List.find?_cons, hx]
    · rcases List.mem_cons.mp h with rfl | h'
      · exact absurd rfl hx
      · simp [List.find?_cons, hx, ih h']

/-- In the batch of metric rows written for one filing, the last
write for tracked metric `m` is that metric's own row. -/
theorem lastWrite_metricRowsOf (inp : FilingInput) (m : String)
    (hm : m ∈ TRACKED_METRICS) :
    lastWrite metricKeyOf (inp.filing.key, m) (metricRowsOf inp) =
      some (metricRowFor inp.filing.key inp.doc m) := by
  unfold lastWrite metricRowsOf
  rw [← List.map_reverse, List.find?_map]
  have hp : ((fun x => decide (metricKeyOf x = (inp.filing.key, m))) ∘
        metricRowFor inp.filing.key inp.doc)
      = fun n => decide (n = m) := by
    funext n
    exact decide_eq_decide.mpr (by simp [metricKeyOf, metricRowFor])
  rw [hp, find?_eq_self_of_mem (List.mem_reverse.mpr hm)]
  rfl

/-- Auxiliary invariant: at every reachable state, stored keyword
frequencies are the scanner's counts (hence nonnegative) and every
keyword row's filing key is present in the filings table. -/
theorem reachable_keyword_inv (s : Store) (h : Reachable s) :
    (∀ kw ∈ s.keywords, 0 ≤ kw.frequency) ∧
      (∀ kw ∈ s.keywords,
        kw.filing_key ∈ keysOf filingKeyOf s.filings) := by
  induction h with
  | init =>
    exact ⟨fun _ hh => absurd hh (List.not_mem_nil _),
      fun _ hh => absurd hh (List.not_mem_nil _)⟩
  | step inputs hr ih =>
    rename_i t
    constructor
    · intro kw hkw
      rw [ingest_keywords] at hkw
      rcases mem_upsertAll keywordKeyOf _ _ kw hkw with hold | hnew
      · exact ih.1 kw hold
      · rcases List.mem_flatMap.mp hnew with ⟨inp, _, hrow⟩
        rcases List.mem_map.mp hrow with ⟨k, _, rfl⟩
        exact Int.natCast_nonneg _
    · intro kw hkw
      rw [ingest_keywords] at hkw
      rw [ingest_filings]
      rcases mem_upsertAll keywordKeyOf _ _ kw hkw with hold | hnew
      · exact mem_keys_upsertAll_mono _ _ _ _ (ih.2 kw hold)
      · rcases List.mem_flatMap.mp hnew with ⟨inp, hinp, hrow⟩
        rcases List.mem_map.mp hrow with ⟨k, _, rfl⟩
        exact mem_keys_upsertAll_of_mem filingKeyOf
          (List.mem_map_of_mem (fun i => i.filing) hinp) t.filings

/-- The first argument's year never exceeds the pick's. -/
theorem year_le_latestPick_left (x z : DashFiling) :
    x.fiscal_year ≤ (latestPick x z).fiscal_year := by
  unfold latestPick
  split
  · exact le_of_lt (by assumption)
  · exact le_refl _

/-- The second argument's year never exceeds the pick's. -/
theorem year_le_latestPick_right (x z : DashFiling) :
    z.fiscal_year ≤ (latestPick x z).fiscal_year := by
  unfold latestPick
  split
  · exact le_refl _
  · exact le_of_not_lt (by assumption)

/-- The pick is one of its two arguments. -/
theorem latestPick_eq_or (x z : DashFiling) :
    latestPick x z = x ∨ latestPick x z = z := by
  unfold latestPick
  split
  · exact Or.inr rfl
  · exact Or.inl rfl

/-- The reduce of `getLatestFiling` returns a member of the list with
maximal fiscal year, and it is the first element attaining that
year. -/
theorem foldl_latestPick_spec (xs : List DashFiling) (x : DashFiling) :
    xs.foldl latestPick x ∈ x :: xs ∧
      (∀ g ∈ x :: xs,
        g.fiscal_year ≤ (xs.foldl latestPick x).fiscal_year) ∧
      (x :: xs).find?
          (fun g => decide (g.fiscal_year = (xs.foldl latestPick x).fiscal_year))
        = some (xs.foldl latestPick x) := by
  induction xs generalizing x with
  | nil =>
    refine ⟨List.mem_cons_self _ _, ?_, ?_⟩
    · intro g hg
      rcases List.mem_cons.mp hg with rfl | h
      · exact le_refl _
      · exact absurd h (List.not_mem_nil _)
    · simp [List.find?_cons]
  | cons z zs ih =>
    have h := ih (latestPick x z)
    rw [List.foldl_cons]
    have hxle : x.fiscal_year ≤ (zs.foldl latestPick (latestPick x z)).fiscal_year :=
      le_trans (year_le_latestPick_left x z) (h.2.1 _ (List.mem_cons_self _ _))
    have hzle : z.fiscal_year ≤ (zs.foldl latestPick (latestPick x z)).fiscal_year :=
      le_trans (year_le_latestPick_right x z) (h.2.1 _ (List.mem_cons_self _ _))
    refine ⟨?_, ?_, ?_⟩
    · rcases List.mem_cons.mp h.1 with heq | hm
      · rcases latestPick_eq_or x z with h' | h'
        · rw [heq, h']
          exact List.mem_cons_self _ _
        · rw [heq, h']
          exact List.mem_cons.mpr (Or.inr (List.mem_cons_self _ _))
      · exact List.mem_cons.mpr (Or.inr (List.mem_cons.mpr (Or.inr hm)))
    · intro g hg
      rcases List.mem_cons.mp hg with rfl | hg
      · exact hxle
      · rcases List.mem_cons.mp hg with rfl | hg
        · exact hzle
        · exact h.2.1 g (List.mem_cons.mpr (Or.inr hg))
    · by_cases hx : x.fiscal_year = (zs.foldl latestPick (latestPick x z)).fiscal_year
      · -- the head already attains the maximal year, so the pick kept x
        have hnlt : ¬ x.fiscal_year < z.fiscal_year := by
          intro hlt
          have hcontra := lt_of_lt_of_le hlt hzle
          rw [← hx] at hcontra
          exact lt_irrefl _ hcontra
        have hpick : latestPick x z = x := by
          unfold latestPick
          rw [if_neg hnlt]
        rw [hpick] at h hx
        have hfind := h.2.2
        rw [List.find?_cons_of_pos _ (by simpa using hx)] at hfind
        have hr : x = zs.foldl latestPick x := by
          simpa using hfind
        rw [hpick, List.find?_cons_of_pos _ (by simpa using hx), ← hr]
      · -- the head does not attain the maximal year and is skipped
        rcases latestPick_eq_or x z with hpick | hpick
        · -- pick = x : then z's year is also below the maximum
          rw [hpick] at h hx hzle hxle
          have hz : ¬ z.fiscal_year = (zs.foldl latestPick x).fiscal_year := by
            intro hzeq
            have h1 : z.fiscal_year ≤ x.fiscal_year := by
              have h2 := year_le_latestPick_right x z
              rwa [hpick] at h2
            exact hx (le_antisymm hxle (hzeq ▸ h1))
          have hfind := h.2.2
          rw [List.find?_cons_of_neg _ (by simpa using hx)] at hfind
          rw [hpick, List.find?_cons_of_neg _ (by simpa using hx),
            List.find?_cons_of_neg _ (by simpa using hz)]
          exact hfind
        · -- pick = z : the recursion's find already starts at z
          rw [hpick] at h hx
          have hfind := h.2.2
          rw [hpick, List.find?_cons_of_neg _ (by simpa using hx)]
          exact hfind

/-- C1: when the Metric Extractor finds multiple candidate numeric
values for a metric, it returns the candidate with the maximum
absolute value; on a document with revenue rows valued 1,000,000 and
50,000,000 it returns 50,000,000. -/
theorem C1_extractor_max_abs :
    (∀ l : List ℤ, l ≠ [] →
      ∃ v, selectCandidate l = some v ∧ v ∈ l ∧ ∀ x ∈ l, |x| ≤ |v|) ∧
      extractMetric segmentDoc "revenue" = some 50000000 := by
  constructor
  · intro l hl
    match l with
    | [] => exact absurd rfl hl
    | x :: xs =>
      exact ⟨xs.foldl pickAbs x, rfl, (foldl_pickAbs_spec xs x).1,
        (foldl_pickAbs_spec xs x).2⟩
  · decide

/-- Witness for C1 at the spec's concrete candidate pair. -/
theorem C1_extractor_max_abs_witness :
    ∃ v, selectCandidate [1000000, 50000000] = some v ∧
      v ∈ [1000000, 50000000] ∧
      ∀ x ∈ ([1000000, 50000000] : List ℤ), |x| ≤ |v| :=
  C1_extractor_max_abs.1 [1000000, 50000000] (by decide)

/-- C2: canonical USD value equals the raw cell times the detected
scale: "in thousands" documents resolve 1,234 to 1,234,000, "in
millions" documents resolve 5 to 5,000,000, and documents with no unit
declaration use scale 1. -/
theorem C2_unit_scaling (text : String) (raw : ℤ) :
    (occursIn "in thousands" text = true →
      occursIn "in millions" text = false →
      canonicalValue (detectUnit text) 1234 = 1234000) ∧
    (occursIn "in millions" text = true →
      occursIn "in thousands" text = false →
      occursIn "(000" text = false →
      canonicalValue (detectUnit text) 5 = 5000000) ∧
    (occursIn "in thousands" text = false →
      occursIn "(000" text = false →
      occursIn "in millions" text = false →
      detectUnit text = UnitScale.ones ∧
        canonicalValue (detectUnit text) raw = raw) := by
  refine ⟨fun h1 h2 => ?_, fun h1 h2 h3 => ?_, fun h1 h2 h3 => ?_⟩
  · rw [detectUnit_thousands text h1 h2]
    rfl
  · rw [detectUnit_millions text h1 h2 h3]
    rfl
  · rw [detectUnit_ones text h1 h2 h3]
    exact ⟨rfl, mul_one raw⟩

/-- Witness for C2 at three concrete documents. -/
theorem C2_unit_scaling_witness :
    canonicalValue (detectUnit "(in thousands, except share data)") 1234
        = 1234000 ∧
      canonicalValue (detectUnit "(in millions)") 5 = 5000000 ∧
      canonicalValue (detectUnit "consolidated statements") 7 = 7 :=
  ⟨(C2_unit_scaling "(in thousands, except share data)" 0).1
      (by decide) (by decide),
   (C2_unit_scaling "(in millions)" 0).2.1 (by decide) (by decide)
      (by decide),
   ((C2_unit_scaling "consolidated statements" 7).2.2 (by decide)
      (by decide) (by decide)).2⟩

/-- C3: for every ingested filing and every tracked metric whose label
patterns match nowhere in the document, the pipeline still stores a
metric row for (filing, metric) with a null value — present, not
omitted, and extraction is total (no error). -/
theorem C3_null_metric_row_stored (s : Store) (inp : FilingInput)
    (m : String) (hm : m ∈ TRACKED_METRICS)
    (hno : candidatesFor inp.doc m = []) :
    lookupKey metricKeyOf (inp.filing.key, m) ((ingest [inp] s).metrics) =
      some { filing_key := inp.filing.key, metric_name := m,
             metric_value := none, unit := "USD" } := by
  have h1 : (ingest [inp] s).metrics
      = upsertAll metricKeyOf (metricRowsOf inp) s.metrics := rfl
  have h2 : extractMetric inp.doc m = none := by
    unfold extractMetric
    rw [hno]
    rfl
  rw [h1, lookupKey_upsertAll, lastWrite_metricRowsOf inp m hm]
  unfold metricRowFor
  rw [h2]
  rfl

/-- Witness for C3 at a concrete filing with an empty document. -/
theorem C3_null_metric_row_stored_witness :
    lookupKey metricKeyOf (emptyDocInput.filing.key, "net_income")
        ((ingest [emptyDocInput] Store.empty).metrics) =
      some { filing_key := emptyDocInput.filing.key,
             metric_name := "net_income", metric_value := none,
             unit := "USD" } :=
  C3_null_metric_row_stored Store.empty emptyDocInput "net_income"
    (by decide) (by decide)

/-- C4: running the orchestrator twice on an unchanged filing set is
idempotent — the stored filing, metric, and keyword rows after the
second run are identical to those after the first, because every
upsert is keyed by the uniqueness invariants. -/
theorem C4_ingest_idempotent (inputs : List FilingInput) (s : Store)
    (h : s.WF) : ingest inputs (ingest inputs s) = ingest inputs s := by
  apply Store.ext_fields
  · simp only [ingest_filings]
    exact upsertAll_idem _ _ _ h.1
  · simp only [ingest_metrics]
    exact upsertAll_idem _ _ _ h.2.1
  · simp only [ingest_keywords]
    exact upsertAll_idem _ _ _ h.2.2

/-- Witness for C4 at a concrete one-filing input batch. -/
theorem C4_ingest_idempotent_witness :
    ingest [emptyDocInput] (ingest [emptyDocInput] Store.empty)
      = ingest [emptyDocInput] Store.empty :=
  C4_ingest_idempotent [emptyDocInput] Store.empty
    ⟨List.nodup_nil, List.nodup_nil, List.nodup_nil⟩

/-- C5: at every reachable storage state the filing natural key is
unique — no two filing rows share a key — and upserting a row whose
key is already present updates in place, leaving the key sequence
(hence the row count) unchanged. -/
theorem C5_filing_key_unique (s : Store) (h : Reachable s) :
    (keysOf filingKeyOf s.filings).Nodup ∧
      ∀ r : FilingRow, filingKeyOf r ∈ keysOf filingKeyOf s.filings →
        keysOf filingKeyOf (upsertRow filingKeyOf r s.filings)
          = keysOf filingKeyOf s.filings := by
  refine ⟨(reachable_wf h).1, ?_⟩
  intro r hr
  rw [keysOf_upsertRow, if_pos hr]

/-- Witness for C5 at the store reached by one concrete run. -/
theorem C5_filing_key_unique_witness :
    (keysOf filingKeyOf (ingest [emptyDocInput] Store.empty).filings).Nodup ∧
      ∀ r : FilingRow,
        filingKeyOf r ∈ keysOf filingKeyOf
          (ingest [emptyDocInput] Store.empty).filings →
        keysOf filingKeyOf
            (upsertRow filingKeyOf r (ingest [emptyDocInput] Store.empty).filings)
          = keysOf filingKeyOf (ingest [emptyDocInput] Store.empty).filings :=
  C5_filing_key_unique (ingest [emptyDocInput] Store.empty)
    (Reachable.step [emptyDocInput] Reachable.init)

/-- C6: the tracked metric names and keyword vocabulary are exactly
the fixed enumerated sets of `src/lib/supabase.ts`, and every
extraction result references only names from these sets. -/
theorem C6_fixed_vocabularies :
    TRACKED_METRICS = ["revenue", "net_income", "total_assets",
        "total_liabilities", "cash_and_equivalents"] ∧
      TRACKED_KEYWORDS = ["supply chain", "inflation", "cybersecurity",
        "litigation", "regulation", "competition", "climate", "pandemic",
        "geopolitical", "interest rate"] ∧
      (∀ (inp : FilingInput) (r : MetricRow), r ∈ metricRowsOf inp →
        r.metric_name ∈ TRACKED_METRICS) ∧
      (∀ (inp : FilingInput) (r : KeywordRow), r ∈ keywordRowsOf inp →
        r.keyword ∈ TRACKED_KEYWORDS) := by
  refine ⟨rfl, rfl, ?_, ?_⟩
  · intro inp r hr
    rcases List.mem_map.mp hr with ⟨m, hm, rfl⟩
    exact hm
  · intro inp r hr
    rcases List.mem_map.mp hr with ⟨kw, hkw, rfl⟩
    exact (List.mem_filter.mp hkw).1

/-- Witness for C6 at a concrete extraction result row. -/
theorem C6_fixed_vocabularies_witness :
    ({ filing_key := sampleKey, metric_name := "revenue",
       metric_value := none, unit := "USD" } : MetricRow).metric_name
      ∈ TRACKED_METRICS :=
  C6_fixed_vocabularies.2.2.1 emptyDocInput _ (by decide)

/-- C7: at every reachable storage state, every keyword row belongs
to exactly one filing, (filing, keyword, section) uniquely identifies
a keyword row, and every stored frequency is nonnegative. -/
theorem C7_keyword_invariants (s : Store) (h : Reachable s) :
    (keysOf keywordKeyOf s.keywords).Nodup ∧
      (∀ kw ∈ s.keywords, 0 ≤ kw.frequency) ∧
      (∀ kw ∈ s.keywords,
        ∃! f : FilingRow, f ∈ s.filings ∧ filingKeyOf f = kw.filing_key) := by
  refine ⟨(reachable_wf h).2.2, (reachable_keyword_inv s h).1, ?_⟩
  intro kw hkw
  have hk := (reachable_keyword_inv s h).2 kw hkw
  rcases List.mem_map.mp hk with ⟨f, hf, hfk⟩
  refine ⟨f, ⟨hf, hfk⟩, ?_⟩
  intro g hg
  exact List.inj_on_of_nodup_map (reachable_wf h).1 hg.1 hf
    (hg.2.trans hfk.symm)

/-- Witness for C7 at the store reached by one concrete run. -/
theorem C7_keyword_invariants_witness :
    (keysOf keywordKeyOf
      (ingest [riskDocInput] Store.empty).keywords).Nodup :=
  (C7_keyword_invariants (ingest [riskDocInput] Store.empty)
    (Reachable.step [riskDocInput] Reachable.init)).1

/-- C8: a stored metric value of exactly 0 for revenue, net_income or
total_assets is mapped to null by the `|| null` coercion in both
page-assembly functions, indistinguishable from a not-found metric
(which also renders null). -/
theorem C8_zero_metric_coerced_to_null (rows : List MetricRow) :
    (metricsMapLookup rows "revenue" = some (some 0) →
      (homeFilingView rows).total_revenue = none ∧
        (tickerFilingView rows).total_revenue = none) ∧
      (metricsMapLookup rows "net_income" = some (some 0) →
        (homeFilingView rows).net_income = none ∧
          (tickerFilingView rows).net_income = none) ∧
      (metricsMapLookup rows "total_assets" = some (some 0) →
        (homeFilingView rows).total_assets = none ∧
          (tickerFilingView rows).total_assets = none) ∧
      jsOrNull none = none := by
  refine ⟨fun h => ?_, fun h => ?_, fun h => ?_, rfl⟩ <;>
    exact ⟨by simp [homeFilingView, h, jsOrNull],
      by simp [tickerFilingView, h, jsOrNull]⟩

/-- Witness for C8 at a concrete row set holding a true zero. -/
theorem C8_zero_metric_coerced_to_null_witness :
    (homeFilingView [⟨sampleKey, "revenue", some 0, "USD"⟩]).total_revenue
        = none ∧
      (tickerFilingView [⟨sampleKey, "revenue", some 0, "USD"⟩]).total_revenue
        = none :=
  (C8_zero_metric_coerced_to_null
    [⟨sampleKey, "revenue", some 0, "USD"⟩]).1 (by decide)

/-- C9: `getLatestFiling` returns, for a non-empty list, an element
whose fiscal year is maximal — the first such element when several
share the maximum — and null for a missing or empty list.  (The
embedding is purely functional, so the input list is unchanged by
construction.) -/
theorem C9_getLatestFiling_spec (l : List DashFiling) :
    getLatestFiling none = none ∧
      getLatestFiling (some []) = none ∧
      (l ≠ [] → ∃ f, getLatestFiling (some l) = some f ∧ f ∈ l ∧
        (∀ g ∈ l, g.fiscal_year ≤ f.fiscal_year) ∧
        l.find? (fun g => decide (g.fiscal_year = f.fiscal_year)) = some f) := by
  refine ⟨rfl, rfl, ?_⟩
  intro hl
  match l with
  | [] => exact absurd rfl hl
  | x :: xs =>
    exact ⟨xs.foldl latestPick x, rfl, (foldl_latestPick_spec xs x).1,
      (foldl_latestPick_spec xs x).2.1, (foldl_latestPick_spec xs x).2.2⟩

/-- Witness for C9 at a concrete list with a tied maximal year. -/
theorem C9_getLatestFiling_spec_witness :
    ∃ f, getLatestFiling
        (some [dashFiling "a" 2021, dashFiling "b" 2023, dashFiling "c" 2023])
          = some f ∧
      f ∈ [dashFiling "a" 2021, dashFiling "b" 2023, dashFiling "c" 2023] ∧
      (∀ g ∈ [dashFiling "a" 2021, dashFiling "b" 2023, dashFiling "c" 2023],
        g.fiscal_year ≤ f.fiscal_year) ∧
      [dashFiling "a" 2021, dashFiling "b" 2023,
          dashFiling "c" 2023].find?
          (fun g => decide (g.fiscal_year = f.fiscal_year)) = some f :=
  (C9_getLatestFiling_spec
    [dashFiling "a" 2021, dashFiling "b" 2023, dashFiling "c" 2023]).2.2
    (by decide)

/-- C10: `calculateGrowth` never divides by zero — it returns null
exactly when an argument is null or the base is zero, and otherwise
the one-decimal rendering of ((current - previous) / |previous|) *
100. -/
theorem C10_calculateGrowth_safe (current previous : Option ℚ) :
    (calculateGrowth current previous = none ↔
      current = none ∨ previous = none ∨ previous = some 0) ∧
      ∀ c p, current = some c → previous = some p → p ≠ 0 →
        calculateGrowth current previous
          = some (jsToFixed1 ((c - p) / |p| * 100)) := by
  constructor
  · cases current with
    | none => simp [calculateGrowth]
    | some c =>
      cases previous with
      | none => simp [calculateGrowth]
      | some p =>
        by_cases hp : p = 0 <;> simp [calculateGrowth, hp]
  · rintro c p rfl rfl hp
    simp [calculateGrowth, hp]

/-- Witness for C10 at concrete values 150 and 100 (growth 50.0%). -/
theorem C10_calculateGrowth_safe_witness :
    calculateGrowth (some 150) (some 100)
        = some (jsToFixed1 ((150 - 100) / |(100 : ℚ)| * 100)) ∧
      jsToFixed1 ((150 - 100) / |(100 : ℚ)| * 100) = "50.0" :=
  ⟨(C10_calculateGrowth_safe (some 150) (some 100)).2 150 100 rfl rfl
      (by norm_num),
    by norm_num [jsToFixed1]; decide⟩

end SecEdgar
